import Mathlib

/-!
Shallow embedding of the SymSpell-style spell checker (src/spellcheck.rs)
and proofs of the specification claims.

Strings are modelled as lists of code units (`List Nat`), matching the
byte/char-sequence view the Rust code takes. Hash sets are modelled as
duplicate-free lists in insertion order (a hash set's iteration order is
unspecified in Rust; every theorem below is insensitive to that order).
Hash maps keyed by strings are modelled as functions `Str → List Nat`,
updated pointwise exactly as `entry(..).or_insert_with(..).push(..)` does.
The LFU cache is modelled as a partial map `Str → Option (List Suggestion)`;
eviction only removes entries, and all cache-dependent theorems quantify
over every cache state satisfying the cache invariant, so eviction is
covered by that quantification.
-/

namespace SpellCheck

/-- A string, viewed as its sequence of code units. -/
abbrev Str := List Nat

/-- All strings obtained from `w` by deleting exactly one position
(the inner `for idx in 0..chars.len()` loop of `deletion_variants`). -/
def delOne (w : Str) : List Str :=
  (List.range w.length).map (fun idx => w.take idx ++ w.drop (idx + 1))

/-- One BFS round of `deletion_variants`: over every `variant` of the
frontier and every single-deletion `shorter`, insert `shorter` into `seen`
(and into the next frontier) when it has not been seen before. The state is
(seen, next). -/
def dvRound (p : List Str × List Str) (v : Str) : List Str × List Str :=
  (delOne v).foldl
    (fun q s => if s ∈ q.1 then q else (q.1 ++ [s], q.2 ++ [s])) p

/-- The `for _ in 0..max_del` loop of `deletion_variants`, with the early
break when a round produces no new string. -/
def dvRounds : Nat → List Str → List Str → List Str
  | 0, seen, _ => seen
  | k + 1, seen, frontier =>
    let p := frontier.foldl dvRound (seen, [])
    if p.2 = [] then seen else dvRounds k p.1 p.2

/-- `deletion_variants(word, max_del, keep_original)` from the source:
every distinct string reachable from `word` by 1..max_del single-character
deletions, optionally seeded with `word` itself. -/
def deletion_variants (word : Str) (maxDel : Nat) (keepOriginal : Bool) : List Str :=
  dvRounds maxDel (if keepOriginal then [word] else []) [word]

/-- One cell of the banded DP row of `bounded_levenshtein`. `row = i+1` is
the 1-based row index, `prev` the previous row, `sc` the current character
of the shorter string, `n` the length of the longer string `l`. Column `0`
holds `row`; a column outside `[col_min, col_max]` holds the sentinel
`k + 1`; otherwise the cell is `min(ins, del, sub)` exactly as in the
source's inner loop (`curr[j-1]` is the previously computed cell, which is
the structural recursive call). -/
def currCell (l : Str) (prev : List Nat) (sc k row n : Nat) : Nat → Nat
  | 0 => row
  | j + 1 =>
    let colMin := if k < row then row - k else 1
    let colMax := min (row + k) n
    if j + 1 < colMin ∨ colMax < j + 1 then k + 1
    else
      let cost := if sc = l.getD j 0 then 0 else 1
      min (min (currCell l prev sc k row n j + 1) (prev.getD (j + 1) 0 + 1))
        (prev.getD j 0 + cost)

/-- The row loop of `bounded_levenshtein`: fold over the remaining
characters of the shorter string (with `i` the number already consumed),
replacing `prev` by the freshly computed row each time. -/
def levLoop (l : Str) (k n : Nat) : Nat → List Nat → List Nat → List Nat
  | _, prev, [] => prev
  | i, prev, sc :: rest =>
    levLoop l k n (i + 1) ((List.range (n + 1)).map (currCell l prev sc k (i + 1) n)) rest

/-- `bounded_levenshtein(a, b, max_dist)` from the source: designate the
shorter string, bail out with `max_dist + 1` when the length difference
already exceeds the bound, otherwise run the banded two-row DP and return
the last cell of the final row. -/
def bounded_levenshtein (a b : Str) (maxDist : Nat) : Nat :=
  let shorter := if a.length ≤ b.length then a else b
  let longer := if a.length ≤ b.length then b else a
  if maxDist < longer.length - shorter.length then maxDist + 1
  else
    let n := longer.length
    (levLoop longer maxDist n 0 (List.range (n + 1)) shorter).getD n 0

/-- Row `i+1` of the textbook Levenshtein DP table between prefixes of `a`
and `b`, given row `i` as the function `f`. Reference definition used to
state what the true (unbounded) edit distance is. -/
def levRow (a b : Str) (f : Nat → Nat) (i : Nat) : Nat → Nat
  | 0 => i + 1
  | j + 1 =>
    min (min (levRow a b f i j + 1) (f (j + 1) + 1))
      (f j + (if a.getD i 0 = b.getD j 0 then 0 else 1))

/-- Row `i` of the textbook Levenshtein DP table, as a function of the
column index. -/
def levTab (a b : Str) : Nat → Nat → Nat
  | 0 => fun j => j
  | i + 1 => levRow a b (levTab a b i) i

/-- The true (unbounded) Levenshtein distance between `a` and `b`:
the corner cell of the full textbook DP table. -/
def levenshtein (a b : Str) : Nat :=
  levTab a b a.length b.length

/-- A spelling suggestion: a vocabulary word with its verified distance. -/
structure Suggestion where
  word : Str
  distance : Nat
deriving DecidableEq, Repr

/-- Result of a single-word query: `NoSuggestions` when the query word is
already in the vocabulary, otherwise `Suggestions` with the ranked list. -/
inductive SuggestedCorrection where
  | NoSuggestions : SuggestedCorrection
  | Suggestions : List Suggestion → SuggestedCorrection
deriving DecidableEq, Repr

/-- Byte-lexicographic "less or equal" on strings, as `Ord` on Rust
strings compares them. -/
def lexLE : Str → Str → Bool
  | [], _ => true
  | _ :: _, [] => false
  | x :: xs, y :: ys => if x < y then true else if y < x then false else lexLE xs ys

/-- The comparator of `suggestions.sort_by`, as the induced "less or
equal" relation: ascending distance, then descending word length, then
ascending lexicographic order. -/
def suggR (a b : Suggestion) : Prop :=
  a.distance < b.distance ∨
    (a.distance = b.distance ∧
      (b.word.length < a.word.length ∨
        (b.word.length = a.word.length ∧ lexLE a.word b.word = true)))

instance : DecidableRel suggR := by
  intro a b
  unfold suggR
  infer_instance

/-- The `SpellCorrector` state. `dictionary` is the word vector,
`lkp_dictionary` the membership hash set (modelled as a duplicate-free
list), `dictionary_del_mappings` the deletion index (variant ↦ bucket of
dictionary indices, modelled pointwise), `cache` the LFU cache contents. -/
structure SpellCorrector where
  dictionary : List Str
  lkp_dictionary : List Str
  dictionary_del_mappings : Str → List Nat
  max_edit_distance : Nat
  cache : Str → Option (List Suggestion)

/-- Insert into a hash set modelled as a duplicate-free list. -/
def hsInsert (acc : List Str) (w : Str) : List Str :=
  if w ∈ acc then acc else acc ++ [w]

/-- Push index `i` onto the bucket of every deletion variant of `w`
(`for del_word in &deletions { entry(..).push(i) }`): since the variants
of one word are distinct, each bucket gains `i` at most once. -/
def pushWordVariants (k : Nat) (m : Str → List Nat) (w : Str) (i : Nat) :
    Str → List Nat :=
  fun v => if v ∈ deletion_variants w k true then m v ++ [i] else m v

/-- The index-construction loop of `SpellCorrector::new`, iterating the
dictionary with indices. -/
def buildMappings (dictionary : List Str) (k : Nat) : Str → List Nat :=
  (List.range dictionary.length).foldl
    (fun m i => pushWordVariants k m (dictionary.getD i []) i) (fun _ => [])

/-- `SpellCorrector::new(dictionary, max_edit_distance)`. -/
def SpellCorrector.new (dictionary : List Str) (maxEditDistance : Nat) :
    SpellCorrector where
  dictionary := dictionary
  lkp_dictionary := dictionary.foldl hsInsert []
  dictionary_del_mappings := buildMappings dictionary maxEditDistance
  max_edit_distance := maxEditDistance
  cache := fun _ => none

/-- `add_word_to_dictionary`: push the word, index its deletion variants
under the new index, insert into the lookup set, clear the cache. -/
def add_word_to_dictionary (c : SpellCorrector) (word : Str) : SpellCorrector where
  dictionary := c.dictionary ++ [word]
  lkp_dictionary := hsInsert c.lkp_dictionary word
  dictionary_del_mappings :=
    pushWordVariants c.max_edit_distance c.dictionary_del_mappings word
      c.dictionary.length
  max_edit_distance := c.max_edit_distance
  cache := fun _ => none

/-- Candidate collection of `suggest_single_word_corrections`: for each
deletion variant of the query (keep-original = false), extend the
candidate set with that variant's index bucket. -/
def candidateList (c : SpellCorrector) (word : Str) : List Nat :=
  (deletion_variants word c.max_edit_distance false).foldl
    (fun acc v => (c.dictionary_del_mappings v).foldl
      (fun a i => if i ∈ a then a else a ++ [i]) acc) []

/-- The filter-and-verify step: keep each candidate whose
`bounded_levenshtein` distance to the query is within the bound, as a
`Suggestion`. -/
def verifiedSuggestions (c : SpellCorrector) (word : Str) : List Suggestion :=
  (candidateList c word).filterMap (fun i =>
    let distance := bounded_levenshtein word (c.dictionary.getD i []) c.max_edit_distance
    if distance ≤ c.max_edit_distance then
      some { word := c.dictionary.getD i [], distance := distance }
    else none)

/-- The ranked suggestion list before truncation: verified candidates
sorted by the `sort_by` comparator (a stable sort, like Rust's). -/
def rankedSuggestions (c : SpellCorrector) (word : Str) : List Suggestion :=
  (verifiedSuggestions c word).insertionSort suggR

/-- The recompute path of `suggest_single_word_corrections`: rank,
truncate to `n`, store in the cache, return. -/
def SpellCorrector.recompute (c : SpellCorrector) (word : Str) (n : Nat) :
    SuggestedCorrection × SpellCorrector :=
  let suggestions := (rankedSuggestions c word).take n
  (SuggestedCorrection.Suggestions suggestions,
    { c with cache := fun v => if v = word then some suggestions else c.cache v })

/-- `suggest_single_word_corrections(word, n_suggestions)`: exact-match
short circuit, then the cache-serve path (strictly more cached entries
than requested), then the recompute path. Returns the result together
with the corrector's updated state (the Rust method mutates the cache
through interior mutability). -/
def SpellCorrector.suggest (c : SpellCorrector) (word : Str) (n : Nat) :
    SuggestedCorrection × SpellCorrector :=
  if word ∈ c.lkp_dictionary then (SuggestedCorrection.NoSuggestions, c)
  else
    match c.cache word with
    | some cached =>
      if n < cached.length then
        (SuggestedCorrection.Suggestions (cached.take n), c)
      else c.recompute word n
    | none => c.recompute word n

/-- `suggest_word_corrections(words, n_suggestions)`: the data-parallel
map over the input words, preserving input order. Each element is the
single-word path against the shared corrector state. -/
def suggest_word_corrections (c : SpellCorrector) (words : List Str) (n : Nat) :
    List SuggestedCorrection :=
  words.map (fun w => (c.suggest w n).1)

/-! ### Properties of the reference Levenshtein table -/

/-- Recurrence of the textbook DP table at positive row and column. -/
theorem levTab_succ_succ (a b : Str) (i j : Nat) :
    levTab a b (i + 1) (j + 1) =
      min (min (levTab a b (i + 1) j + 1) (levTab a b i (j + 1) + 1))
        (levTab a b i j + (if a.getD i 0 = b.getD j 0 then 0 else 1)) := rfl

/-- The cost of a substitution step is 0 or 1. -/
theorem cost_cases (p : Prop) [Decidable p] :
    (if p then 0 else 1) = 0 ∨ (if p then (0 : Nat) else 1) = 1 := by
  split
  · exact Or.inl rfl
  · exact Or.inr rfl

/-- The DP table dominates the difference of its indices. -/
theorem levTab_sub_le (a b : Str) :
    ∀ i j, i - j ≤ levTab a b i j ∧ j - i ≤ levTab a b i j := by
  intro i
  induction i with
  | zero =>
    intro j
    show 0 - j ≤ j ∧ j - 0 ≤ j
    omega
  | succ i ih =>
    intro j
    induction j with
    | zero =>
      show i + 1 - 0 ≤ i + 1 ∧ 0 - (i + 1) ≤ i + 1
      omega
    | succ j ihj =>
      rw [levTab_succ_succ]
      have h1 := ih (j + 1)
      have h2 := ih j
      have h3 := cost_cases (a.getD i 0 = b.getD j 0)
      omega

/-- The DP table is symmetric in its two strings. -/
theorem levTab_symm (a b : Str) : ∀ i j, levTab a b i j = levTab b a j i := by
  intro i
  induction i with
  | zero =>
    intro j
    cases j with
    | zero => rfl
    | succ j => rfl
  | succ i ih =>
    intro j
    induction j with
    | zero => rfl
    | succ j ihj =>
      rw [levTab_succ_succ, levTab_succ_succ, ihj, ih (j + 1), ih j]
      have hc : (if a.getD i 0 = b.getD j 0 then (0 : Nat) else 1) =
          (if b.getD j 0 = a.getD i 0 then (0 : Nat) else 1) := by
        simp [eq_comm]
      rw [hc]
      omega

/-- Symmetry of the reference distance. -/
theorem levenshtein_symm (a b : Str) : levenshtein a b = levenshtein b a :=
  levTab_symm a b a.length b.length

/-- A zero cell of the DP table forces the corresponding prefixes to be
equal. -/
theorem levTab_eq_zero (a b : Str) :
    ∀ i j, i ≤ a.length → j ≤ b.length → levTab a b i j = 0 →
      a.take i = b.take j := by
  intro i
  induction i with
  | zero =>
    intro j _ _ h
    have hj : j = 0 := h
    subst hj
    rfl
  | succ i ih =>
    intro j hi hj h
    cases j with
    | zero => exact absurd h (by simp [levTab, levRow])
    | succ j =>
      rw [levTab_succ_succ] at h
      have h3 := cost_cases (a.getD i 0 = b.getD j 0)
      have hsub : levTab a b i j = 0 ∧
          (if a.getD i 0 = b.getD j 0 then (0 : Nat) else 1) = 0 := by omega
      have hch : a.getD i 0 = b.getD j 0 := by
        rcases hsub with ⟨_, hc⟩
        by_contra hne
        rw [if_neg hne] at hc
        exact one_ne_zero hc
      have hpre := ih j (by omega) (by omega) hsub.1
      have hta : a.take (i + 1) = a.take i ++ [a.getD i 0] := by
        rw [List.take_succ, List.getD_eq_getElem?_getD]
        have : i < a.length := by omega
        simp [List.getElem?_eq_getElem this]
      have htb : b.take (j + 1) = b.take j ++ [b.getD j 0] := by
        rw [List.take_succ, List.getD_eq_getElem?_getD]
        have : j < b.length := by omega
        simp [List.getElem?_eq_getElem this]
      rw [hta, htb, hpre, hch]

/-- Equal strings have distance zero (needed only for sanity checks). -/
theorem levTab_refl (a : Str) : ∀ i, i ≤ a.length → levTab a a i i = 0 := by
  intro i
  induction i with
  | zero => intro; rfl
  | succ i ih =>
    intro hi
    rw [levTab_succ_succ]
    have h := ih (by omega)
    have hc : (if a.getD i 0 = a.getD i 0 then (0 : Nat) else 1) = 0 := by simp
    omega

/-! ### Correctness of the banded DP -/

/-- Reading a mapped range at an in-range position. -/
theorem getD_map_range (f : Nat → Nat) (j m : Nat) (h : j < m) :
    ((List.range m).map f).getD j 0 = f j := by
  simp [List.getD_eq_getElem?_getD, List.getElem?_map, List.getElem?_range h]

/-- Invariant carried from row to row of the banded DP: at every column
the row agrees with the reference table whenever the reference value is
within the bound, and it never falls below `min(reference, k+1)`. -/
def RowInv (s l : Str) (k i : Nat) (prev : List Nat) : Prop :=
  ∀ j, j ≤ l.length →
    (levTab s l i j ≤ k → prev.getD j 0 = levTab s l i j) ∧
    min (levTab s l i j) (k + 1) ≤ prev.getD j 0

/-- Unfolding of a banded cell at a positive column. -/
theorem currCell_succ (l : Str) (prev : List Nat) (sc k row n j : Nat) :
    currCell l prev sc k row n (j + 1) =
      if j + 1 < (if k < row then row - k else 1) ∨ min (row + k) n < j + 1 then k + 1
      else
        min (min (currCell l prev sc k row n j + 1) (prev.getD (j + 1) 0 + 1))
          (prev.getD j 0 + (if sc = l.getD j 0 then 0 else 1)) := rfl

set_option maxHeartbeats 2000000 in
/-- One banded row preserves the invariant, cell by cell. -/
theorem currCell_inv (s l : Str) (k i : Nat) (prev : List Nat)
    (hp : RowInv s l k i prev) :
    ∀ j, j ≤ l.length →
      (levTab s l (i + 1) j ≤ k →
        currCell l prev (s.getD i 0) k (i + 1) l.length j = levTab s l (i + 1) j) ∧
      min (levTab s l (i + 1) j) (k + 1) ≤
        currCell l prev (s.getD i 0) k (i + 1) l.length j := by
  intro j
  induction j with
  | zero =>
    intro _
    constructor
    · intro _
      rfl
    · show min (levTab s l (i + 1) 0) (k + 1) ≤ i + 1
      have : levTab s l (i + 1) 0 = i + 1 := rfl
      omega
  | succ j ihj =>
    intro hj
    have ihj' := ihj (by omega)
    have hprev1 := hp (j + 1) hj
    have hprev0 := hp j (by omega)
    rw [levTab_succ_succ, currCell_succ]
    by_cases hband :
        j + 1 < (if k < i + 1 then i + 1 - k else 1) ∨ min (i + 1 + k) l.length < j + 1
    · rw [if_pos hband]
      have hfar : k < (i + 1) - (j + 1) ∨ k < (j + 1) - (i + 1) := by
        rcases hband with hlt | hgt
        · by_cases hk : k < i + 1
          · rw [if_pos hk] at hlt
            omega
          · rw [if_neg hk] at hlt
            omega
        · omega
      have hsub := levTab_sub_le s l (i + 1) (j + 1)
      rw [levTab_succ_succ] at hsub
      omega
    · rw [if_neg hband]
      have h3 := cost_cases (s.getD i 0 = l.getD j 0)
      omega

/-- Producing the next row from a row satisfying the invariant yields a
row satisfying the invariant. -/
theorem rowStep (s l : Str) (k i : Nat) (prev : List Nat)
    (hp : RowInv s l k i prev) :
    RowInv s l k (i + 1)
      ((List.range (l.length + 1)).map (currCell l prev (s.getD i 0) k (i + 1) l.length)) := by
  intro j hj
  rw [getD_map_range _ j (l.length + 1) (by omega)]
  exact currCell_inv s l k i prev hp j hj

/-- The row loop turns an invariant row at index `i` into an invariant row
for the full shorter string. -/
theorem levLoop_inv (s l : Str) (k : Nat) :
    ∀ rest i prev, s.drop i = rest → i ≤ s.length → RowInv s l k i prev →
      RowInv s l k s.length (levLoop l k l.length i prev rest) := by
  intro rest
  induction rest with
  | nil =>
    intro i prev hdrop hi hp
    have hlen : s.length ≤ i := by
      by_contra hlt
      have : s.drop i ≠ [] := by
        apply List.ne_nil_of_length_pos
        rw [List.length_drop]
        omega
      exact this hdrop
    have : i = s.length := by omega
    subst this
    exact hp
  | cons sc rest ih =>
    intro i prev hdrop hi hp
    have hilt : i < s.length := by
      by_contra hge
      have : s.drop i = [] := by
        apply List.drop_eq_nil_of_le
        omega
      rw [this] at hdrop
      exact List.noConfusion hdrop
    have hget : s.drop i = s.getD i 0 :: s.drop (i + 1) := by
      rw [List.getD_eq_getElem s 0 hilt]
      exact List.drop_eq_getElem_cons hilt
    rw [hget] at hdrop
    have hsc : sc = s.getD i 0 := (List.cons.injEq _ _ _ _ ▸ hdrop).1.symm
    have hrest : s.drop (i + 1) = rest := (List.cons.injEq _ _ _ _ ▸ hdrop).2
    show RowInv s l k s.length (levLoop l k l.length (i + 1)
      ((List.range (l.length + 1)).map (currCell l prev sc k (i + 1) l.length)) rest)
    rw [hsc]
    exact ih (i + 1) _ hrest (by omega) (rowStep s l k i prev hp)

/-- The initial row `0..=n` satisfies the invariant at row index 0. -/
theorem rowInv_init (s l : Str) (k : Nat) :
    RowInv s l k 0 (List.range (l.length + 1)) := by
  intro j hj
  have : (List.range (l.length + 1)).getD j 0 = j := by
    rw [List.getD_eq_getElem?_getD, List.getElem?_range (by omega : j < l.length + 1)]
    rfl
  rw [this]
  have : levTab s l 0 j = j := rfl
  omega

/-- The banded DP, run with the shorter string first, computes the
reference distance when it is within the bound and otherwise a value
exceeding the bound. -/
theorem bounded_core (sh lo : Str) (k : Nat) :
    (levTab sh lo sh.length lo.length ≤ k →
      (if k < lo.length - sh.length then k + 1
        else (levLoop lo k lo.length 0 (List.range (lo.length + 1)) sh).getD lo.length 0) =
        levTab sh lo sh.length lo.length) ∧
    (k < levTab sh lo sh.length lo.length →
      k < (if k < lo.length - sh.length then k + 1
        else (levLoop lo k lo.length 0 (List.range (lo.length + 1)) sh).getD lo.length 0)) := by
  have hsub := levTab_sub_le sh lo sh.length lo.length
  by_cases hbail : k < lo.length - sh.length
  · rw [if_pos hbail]
    omega
  · rw [if_neg hbail]
    have hinv := levLoop_inv sh lo k sh 0 (List.range (lo.length + 1))
      (by simp) (by omega) (rowInv_init sh lo k)
    have := hinv lo.length (by omega)
    omega

/-- The bounded verifier returns the true distance whenever that distance
is within the bound, and a value exceeding the bound otherwise. -/
theorem bounded_lev_spec (a b : Str) (k : Nat) :
    (levenshtein a b ≤ k → bounded_levenshtein a b k = levenshtein a b) ∧
    (k < levenshtein a b → k < bounded_levenshtein a b k) := by
  by_cases hab : a.length ≤ b.length
  · have hcore := bounded_core a b k
    simpa [bounded_levenshtein, hab, levenshtein] using hcore
  · have hcore := bounded_core b a k
    have hsym : levenshtein a b = levTab b a b.length a.length :=
      levTab_symm a b a.length b.length
    rw [show bounded_levenshtein a b k =
        (if k < a.length - b.length then k + 1
          else (levLoop a k a.length 0 (List.range (a.length + 1)) b).getD a.length 0) by
      simp [bounded_levenshtein, hab], hsym]
    exact hcore

/-- Only equal strings get a zero out of the bounded verifier. -/
theorem bounded_lev_eq_zero (a b : Str) (k : Nat)
    (h : bounded_levenshtein a b k = 0) : a = b := by
  rcases le_or_lt (levenshtein a b) k with hle | hgt
  · have heq := (bounded_lev_spec a b k).1 hle
    have hz : levenshtein a b = 0 := by omega
    have := levTab_eq_zero a b a.length b.length le_rfl le_rfl hz
    simpa [List.take_length] using this
  · have := (bounded_lev_spec a b k).2 hgt
    omega

/-! ### Properties of the deletion-variant generator -/

/-- A single deletion shortens the word by exactly one character. -/
theorem delOne_length {w s : Str} (h : s ∈ delOne w) : s.length + 1 = w.length := by
  obtain ⟨idx, hidx, rfl⟩ := List.mem_map.mp h
  rw [List.mem_range] at hidx
  simp [List.length_take, List.length_drop]
  omega

/-- The inner insertion fold of a BFS round: characterization of the
resulting seen set. -/
theorem dvInner_mem_fst (l : List Str) :
    ∀ (q : List Str × List Str) (x : Str),
      x ∈ (l.foldl (fun q s => if s ∈ q.1 then q else (q.1 ++ [s], q.2 ++ [s])) q).1 ↔
        x ∈ q.1 ∨ x ∈ l := by
  induction l with
  | nil => simp
  | cons s l ih =>
    intro q x
    rw [List.foldl_cons, ih]
    by_cases hs : s ∈ q.1
    · rw [if_pos hs]
      constructor
      · rintro (h | h)
        · exact Or.inl h
        · exact Or.inr (List.mem_cons_of_mem s h)
      · rintro (h | h)
        · exact Or.inl h
        · rcases List.mem_cons.mp h with rfl | h
          · exact Or.inl hs
          · exact Or.inr h
    · rw [if_neg hs]
      simp only [List.mem_append, List.mem_singleton, List.mem_cons]
      tauto

/-- The inner insertion fold of a BFS round: characterization of the
resulting next frontier. -/
theorem dvInner_mem_snd (l : List Str) :
    ∀ (q : List Str × List Str) (x : Str),
      x ∈ (l.foldl (fun q s => if s ∈ q.1 then q else (q.1 ++ [s], q.2 ++ [s])) q).2 →
        x ∈ q.2 ∨ x ∈ l := by
  induction l with
  | nil =>
    intro q x h
    exact Or.inl h
  | cons s l ih =>
    intro q x h
    rw [List.foldl_cons] at h
    by_cases hs : s ∈ q.1
    · rw [if_pos hs] at h
      rcases ih _ x h with h | h
      · exact Or.inl h
      · exact Or.inr (List.mem_cons_of_mem s h)
    · rw [if_neg hs] at h
      rcases ih _ x h with h | h
      · rcases List.mem_append.mp h with h | h
        · exact Or.inl h
        · rcases List.mem_singleton.mp h with rfl
          exact Or.inr (List.mem_cons_self x l)
      · exact Or.inr (List.mem_cons_of_mem s h)

/-- A whole BFS round: the seen set is extended only by single-deletion
children of the frontier. -/
theorem dvRound_fold_fst (frontier : List Str) :
    ∀ (p : List Str × List Str) (x : Str),
      x ∈ (frontier.foldl dvRound p).1 ↔
        x ∈ p.1 ∨ ∃ v ∈ frontier, x ∈ delOne v := by
  induction frontier with
  | nil => simp
  | cons v frontier ih =>
    intro p x
    rw [List.foldl_cons]
    show x ∈ (frontier.foldl dvRound (dvRound p v)).1 ↔ _
    rw [ih, dvRound, dvInner_mem_fst]
    simp only [List.mem_cons]
    constructor
    · rintro ((h | h) | ⟨u, hu, hx⟩)
      · exact Or.inl h
      · exact Or.inr ⟨v, Or.inl rfl, h⟩
      · exact Or.inr ⟨u, Or.inr hu, hx⟩
    · rintro (h | ⟨u, (rfl | hu), hx⟩)
      · exact Or.inl (Or.inl h)
      · exact Or.inl (Or.inr hx)
      · exact Or.inr ⟨u, hu, hx⟩

/-- A whole BFS round: every next-frontier element is a single-deletion
child of the frontier. -/
theorem dvRound_fold_snd (frontier : List Str) :
    ∀ (p : List Str × List Str) (x : Str),
      x ∈ (frontier.foldl dvRound p).2 →
        x ∈ p.2 ∨ ∃ v ∈ frontier, x ∈ delOne v := by
  induction frontier with
  | nil =>
    intro p x h
    exact Or.inl h
  | cons v frontier ih =>
    intro p x h
    rw [List.foldl_cons] at h
    rcases ih _ x h with h | ⟨u, hu, hx⟩
    · rcases dvInner_mem_snd _ _ x h with h | h
      · exact Or.inl h
      · exact Or.inr ⟨v, List.mem_cons_self v frontier, h⟩
    · exact Or.inr ⟨u, List.mem_cons_of_mem v hu, hx⟩

/-- Elements of the result of `dvRounds` are either initial seen elements
or strictly shorter than every frontier bound `hi`. -/
theorem dvRounds_mem (hi : Nat) :
    ∀ (r : Nat) (seen frontier : List Str),
      (∀ v ∈ frontier, v.length ≤ hi) →
      ∀ s ∈ dvRounds r seen frontier, s ∈ seen ∨ s.length < hi := by
  intro r
  induction r with
  | zero =>
    intro seen frontier _ s hs
    exact Or.inl hs
  | succ r ih =>
    intro seen frontier hf s hs
    rw [dvRounds] at hs
    by_cases hempty : (frontier.foldl dvRound (seen, [])).2 = []
    · rw [if_pos hempty] at hs
      exact Or.inl hs
    · rw [if_neg hempty] at hs
      have hnext : ∀ v ∈ (frontier.foldl dvRound (seen, [])).2, v.length ≤ hi ∧ 0 < hi := by
        intro v hv
        rcases dvRound_fold_snd frontier (seen, []) v hv with h | ⟨u, hu, hx⟩
        · exact absurd h (List.not_mem_nil v)
        · have := delOne_length hx
          have := hf u hu
          omega
      rcases ih _ _ (fun v hv => (hnext v hv).1) s hs with h | h
      · rcases (dvRound_fold_fst frontier (seen, []) s).mp h with h | ⟨u, hu, hx⟩
        · exact Or.inl h
        · have := delOne_length hx
          have := hf u hu
          right
          omega
      · exact Or.inr h

/-- The seen set only grows across rounds. -/
theorem dvRounds_mono :
    ∀ (r : Nat) (seen frontier : List Str) (x : Str),
      x ∈ seen → x ∈ dvRounds r seen frontier := by
  intro r
  induction r with
  | zero =>
    intro seen frontier x hx
    exact hx
  | succ r ih =>
    intro seen frontier x hx
    rw [dvRounds]
    by_cases hempty : (frontier.foldl dvRound (seen, [])).2 = []
    · rw [if_pos hempty]
      exact hx
    · rw [if_neg hempty]
      exact ih _ _ x ((dvRound_fold_fst frontier (seen, []) x).mpr (Or.inl hx))

/-- Lower bound on lengths in the result of `dvRounds`: with `r` rounds to
go and every frontier length at least `lo + r`, everything that ends up
seen has length at least `lo`. -/
theorem dvRounds_lower (lo : Nat) :
    ∀ (r : Nat) (seen frontier : List Str),
      (∀ s ∈ seen, lo ≤ s.length) →
      (∀ v ∈ frontier, lo + r ≤ v.length) →
      ∀ s ∈ dvRounds r seen frontier, lo ≤ s.length := by
  intro r
  induction r with
  | zero =>
    intro seen frontier hseen _ s hs
    exact hseen s hs
  | succ r ih =>
    intro seen frontier hseen hf s hs
    rw [dvRounds] at hs
    by_cases hempty : (frontier.foldl dvRound (seen, [])).2 = []
    · rw [if_pos hempty] at hs
      exact hseen s hs
    · rw [if_neg hempty] at hs
      refine ih _ _ ?_ ?_ s hs
      · intro x hx
        rcases (dvRound_fold_fst frontier (seen, []) x).mp hx with h | ⟨u, hu, hx'⟩
        · exact hseen x h
        · have := delOne_length hx'
          have := hf u hu
          omega
      · intro x hx
        rcases dvRound_fold_snd frontier (seen, []) x hx with h | ⟨u, hu, hx'⟩
        · exact absurd h (List.not_mem_nil x)
        · have := delOne_length hx'
          have := hf u hu
          omega

/-- Upper bound on lengths in the result of `dvRounds`. -/
theorem dvRounds_upper (hi : Nat) :
    ∀ (r : Nat) (seen frontier : List Str),
      (∀ s ∈ seen, s.length ≤ hi) →
      (∀ v ∈ frontier, v.length ≤ hi) →
      ∀ s ∈ dvRounds r seen frontier, s.length ≤ hi := by
  intro r
  induction r with
  | zero =>
    intro seen frontier hseen _ s hs
    exact hseen s hs
  | succ r ih =>
    intro seen frontier hseen hf s hs
    rw [dvRounds] at hs
    by_cases hempty : (frontier.foldl dvRound (seen, [])).2 = []
    · rw [if_pos hempty] at hs
      exact hseen s hs
    · rw [if_neg hempty] at hs
      refine ih _ _ ?_ ?_ s hs
      · intro x hx
        rcases (dvRound_fold_fst frontier (seen, []) x).mp hx with h | ⟨u, hu, hx'⟩
        · exact hseen x h
        · have := delOne_length hx'
          have := hf u hu
          omega
      · intro x hx
        rcases dvRound_fold_snd frontier (seen, []) x hx with h | ⟨u, hu, hx'⟩
        · exact absurd h (List.not_mem_nil x)
        · have := delOne_length hx'
          have := hf u hu
          omega

/-- The generator with keep-original keeps the original. -/
theorem deletion_variants_keep (w : Str) (k : Nat) :
    w ∈ deletion_variants w k true :=
  dvRounds_mono k [w] [w] w (List.mem_singleton.mpr rfl)

/-- The generator without keep-original never returns the original. -/
theorem deletion_variants_not_keep (w : Str) (k : Nat) :
    w ∉ deletion_variants w k false := by
  intro hmem
  rcases dvRounds_mem w.length k [] [w]
      (by intro v hv; rcases List.mem_singleton.mp hv with rfl; exact le_rfl) w hmem with
    h | h
  · exact List.not_mem_nil w h
  · omega

/-- Length bounds on everything the generator produces. -/
theorem deletion_variants_length (w : Str) (k : Nat) (keep : Bool) :
    ∀ s ∈ deletion_variants w k keep, w.length - k ≤ s.length ∧ s.length ≤ w.length := by
  intro s hs
  have hseed : ∀ x ∈ (if keep then [w] else ([] : List Str)), x.length = w.length := by
    cases keep with
    | true =>
      intro x hx
      rcases List.mem_singleton.mp hx with rfl
      rfl
    | false =>
      intro x hx
      exact absurd hx (List.not_mem_nil x)
  constructor
  · rcases le_or_lt k w.length with hk | hk
    · refine dvRounds_lower (w.length - k) k _ [w] ?_ ?_ s hs
      · intro x hx
        rw [hseed x hx]
        omega
      · intro v hv
        rcases List.mem_singleton.mp hv with rfl
        omega
    · omega
  · refine dvRounds_upper w.length k _ [w] ?_ ?_ s hs
    · intro x hx
      rw [hseed x hx]
    · intro v hv
      rcases List.mem_singleton.mp hv with rfl
      exact le_rfl

/-! ### Index and corrector infrastructure -/

/-- Membership in a duplicate-collapsing insertion fold. -/
theorem mem_foldl_dedup {α : Type} [DecidableEq α] (l : List α) :
    ∀ (acc : List α) (x : α),
      x ∈ l.foldl (fun a i => if i ∈ a then a else a ++ [i]) acc ↔ x ∈ acc ∨ x ∈ l := by
  induction l with
  | nil => simp
  | cons i l ih =>
    intro acc x
    rw [List.foldl_cons, ih]
    by_cases hi : i ∈ acc
    · rw [if_pos hi]
      simp only [List.mem_cons]
      constructor
      · rintro (h | h)
        · exact Or.inl h
        · exact Or.inr (Or.inr h)
      · rintro (h | rfl | h)
        · exact Or.inl h
        · exact Or.inl hi
        · exact Or.inr h
    · rw [if_neg hi]
      simp only [List.mem_append, List.mem_singleton, List.mem_cons]
      tauto

/-- Membership in the lookup set built by `SpellCorrector::new` coincides
with membership in the input word list. -/
theorem mem_foldl_hsInsert_gen (l : List Str) :
    ∀ (acc : List Str) (x : Str), x ∈ l.foldl hsInsert acc ↔ x ∈ acc ∨ x ∈ l := by
  induction l with
  | nil => simp
  | cons i l ih =>
    intro acc x
    rw [List.foldl_cons, ih, hsInsert]
    by_cases hi : i ∈ acc
    · rw [if_pos hi]
      simp only [List.mem_cons]
      constructor
      · rintro (h | h)
        · exact Or.inl h
        · exact Or.inr (Or.inr h)
      · rintro (h | rfl | h)
        · exact Or.inl h
        · exact Or.inl hi
        · exact Or.inr h
    · rw [if_neg hi]
      simp only [List.mem_append, List.mem_singleton, List.mem_cons]
      tauto

theorem mem_foldl_hsInsert (l : List Str) (x : Str) :
    x ∈ l.foldl hsInsert [] ↔ x ∈ l := by
  rw [mem_foldl_hsInsert_gen]
  simp

/-- Pointwise characterization of the deletion index built by
`SpellCorrector::new`: the bucket of a variant holds exactly the indices
of the dictionary words having that variant, in ascending order. -/
theorem buildMappings_eq (dict : List Str) (k : Nat) (v : Str) :
    buildMappings dict k v =
      (List.range dict.length).filter
        (fun i => decide (v ∈ deletion_variants (dict.getD i []) k true)) := by
  have hgen : ∀ (m : Nat) (m0 : Str → List Nat),
      ((List.range m).foldl
          (fun m i => pushWordVariants k m (dict.getD i []) i) m0) v =
        m0 v ++ (List.range m).filter
          (fun i => decide (v ∈ deletion_variants (dict.getD i []) k true)) := by
    intro m
    induction m with
    | zero => intro m0; simp
    | succ m ih =>
      intro m0
      rw [List.range_succ, List.foldl_append, List.foldl_cons, List.foldl_nil,
        List.filter_append]
      show pushWordVariants k _ (dict.getD m []) m v = _
      rw [pushWordVariants]
      by_cases hv : v ∈ deletion_variants (dict.getD m []) k true
      · rw [if_pos hv, ih]
        rw [List.getD_eq_getElem?_getD] at hv
        simp [hv, List.append_assoc]
      · rw [if_neg hv, ih]
        rw [List.getD_eq_getElem?_getD] at hv
        simp [hv]
  have := hgen dict.length (fun _ => [])
  rw [buildMappings, this]
  simp

/-- Basic well-formedness of a corrector: the lookup set mirrors the
dictionary, and every index stored in a bucket is in range. -/
def WF (c : SpellCorrector) : Prop :=
  (∀ w, w ∈ c.lkp_dictionary ↔ w ∈ c.dictionary) ∧
  (∀ v i, i ∈ c.dictionary_del_mappings v → i < c.dictionary.length)

/-- A freshly built corrector is well formed. -/
theorem WF_new (dict : List Str) (k : Nat) : WF (SpellCorrector.new dict k) := by
  constructor
  · intro w
    exact mem_foldl_hsInsert dict w
  · intro v i hi
    have : SpellCorrector.dictionary_del_mappings (SpellCorrector.new dict k) =
        buildMappings dict k := rfl
    rw [this, buildMappings_eq] at hi
    have := List.mem_range.mp (List.mem_of_mem_filter hi)
    exact this

/-- Cache invariant: every cached list is an initial segment of the
deterministic ranked suggestion list for its key. -/
def CacheOK (c : SpellCorrector) : Prop :=
  ∀ w l, c.cache w = some l → l = (rankedSuggestions c w).take l.length

/-- A freshly built corrector has an empty cache. -/
theorem CacheOK_new (dict : List Str) (k : Nat) : CacheOK (SpellCorrector.new dict k) := by
  intro w l h
  exact Option.noConfusion h

/-- A cleared cache satisfies the invariant, hence adding a word keeps it. -/
theorem CacheOK_add (c : SpellCorrector) (w : Str) :
    CacheOK (add_word_to_dictionary c w) := by
  intro w' l h
  exact Option.noConfusion h

/-- Taking a prefix twice is taking it once. -/
theorem take_take_length {α : Type} (l : List α) (n : Nat) :
    l.take n = l.take ((l.take n).length) := by
  rw [List.take_eq_take]
  simp

/-- The ranked list ignores the cache component of the state. -/
theorem ranked_set_cache (c : SpellCorrector) (f : Str → Option (List Suggestion))
    (w : Str) : rankedSuggestions { c with cache := f } w = rankedSuggestions c w := rfl

/-- Membership in the candidate-collection double fold. -/
theorem mem_foldl_extend (g : Str → List Nat) (l : List Str) :
    ∀ (acc : List Nat) (x : Nat),
      x ∈ l.foldl
          (fun acc v => (g v).foldl (fun a i => if i ∈ a then a else a ++ [i]) acc) acc ↔
        x ∈ acc ∨ ∃ v ∈ l, x ∈ g v := by
  induction l with
  | nil => simp
  | cons v l ih =>
    intro acc x
    rw [List.foldl_cons, ih, mem_foldl_dedup]
    simp only [List.mem_cons]
    constructor
    · rintro ((h | h) | ⟨u, hu, hx⟩)
      · exact Or.inl h
      · exact Or.inr ⟨v, Or.inl rfl, h⟩
      · exact Or.inr ⟨u, Or.inr hu, hx⟩
    · rintro (h | ⟨u, (rfl | hu), hx⟩)
      · exact Or.inl (Or.inl h)
      · exact Or.inl (Or.inr hx)
      · exact Or.inr ⟨u, hu, hx⟩

/-- The candidate set holds exactly the bucket members of the query's
deletion variants. -/
theorem mem_candidateList (c : SpellCorrector) (w : Str) (i : Nat) :
    i ∈ candidateList c w ↔
      ∃ v ∈ deletion_variants w c.max_edit_distance false,
        i ∈ c.dictionary_del_mappings v := by
  rw [candidateList, mem_foldl_extend]
  simp

/-- Exact vocabulary members short-circuit to `NoSuggestions`. -/
theorem suggest_mem_lkp (c : SpellCorrector) (w : Str) (n : Nat)
    (h : w ∈ c.lkp_dictionary) :
    c.suggest w n = (SuggestedCorrection.NoSuggestions, c) := by
  rw [SpellCorrector.suggest, if_pos h]

/-- The cache-serve path: a strictly longer cached entry is truncated and
returned, and the state is untouched. -/
theorem suggest_serve (c : SpellCorrector) (w : Str) (n : Nat) (l : List Suggestion)
    (hw : w ∉ c.lkp_dictionary) (hcw : c.cache w = some l) (hn : n < l.length) :
    c.suggest w n = (SuggestedCorrection.Suggestions (l.take n), c) := by
  rw [SpellCorrector.suggest, if_neg hw, hcw]
  simp only [if_pos hn]

/-- The recompute path is taken when there is no cached entry or the
cached entry is not strictly longer than the request. -/
theorem suggest_recompute (c : SpellCorrector) (w : Str) (n : Nat)
    (hw : w ∉ c.lkp_dictionary)
    (hcase : c.cache w = none ∨ ∃ l, c.cache w = some l ∧ l.length ≤ n) :
    c.suggest w n = c.recompute w n := by
  rw [SpellCorrector.suggest, if_neg hw]
  rcases hcase with h | ⟨l, h, hlen⟩
  · rw [h]
  · rw [h]
    simp only [if_neg (by omega : ¬ n < l.length)]

/-- First component of the recompute path. -/
theorem recompute_fst (c : SpellCorrector) (w : Str) (n : Nat) :
    (c.recompute w n).1 =
      SuggestedCorrection.Suggestions ((rankedSuggestions c w).take n) := rfl

/-- The recompute path overwrites the cache entry of the queried word. -/
theorem recompute_cache (c : SpellCorrector) (w : Str) (n : Nat) :
    (c.recompute w n).2.cache w = some ((rankedSuggestions c w).take n) := by
  rw [SpellCorrector.recompute]
  simp

/-- The updated state is the old one, possibly with one cache entry set. -/
theorem suggest_snd_cases (c : SpellCorrector) (w : Str) (n : Nat) :
    (c.suggest w n).2 = c ∨
      (c.suggest w n).2 =
        { c with cache := fun v =>
            if v = w then some ((rankedSuggestions c w).take n) else c.cache v } := by
  by_cases hw : w ∈ c.lkp_dictionary
  · rw [suggest_mem_lkp c w n hw]
    exact Or.inl rfl
  · cases hcw : c.cache w with
    | none =>
      rw [suggest_recompute c w n hw (Or.inl hcw)]
      exact Or.inr rfl
    | some l =>
      by_cases hn : n < l.length
      · rw [suggest_serve c w n l hw hcw hn]
        exact Or.inl rfl
      · rw [suggest_recompute c w n hw (Or.inr ⟨l, hcw, by omega⟩)]
        exact Or.inr rfl

/-- Ranking is a function of the dictionary, the index and the bound
only. -/
theorem ranked_congr (c c' : SpellCorrector) (w : Str)
    (hd : c'.dictionary = c.dictionary)
    (hm : c'.dictionary_del_mappings = c.dictionary_del_mappings)
    (hk : c'.max_edit_distance = c.max_edit_distance) :
    rankedSuggestions c' w = rankedSuggestions c w := by
  rw [rankedSuggestions, rankedSuggestions, verifiedSuggestions, verifiedSuggestions,
    candidateList, candidateList, hd, hm, hk]

/-- A query leaves the ranking of every word unchanged. -/
theorem ranked_suggest_snd (c : SpellCorrector) (w : Str) (n : Nat) (w' : Str) :
    rankedSuggestions (c.suggest w n).2 w' = rankedSuggestions c w' := by
  rcases suggest_snd_cases c w n with he | he
  · rw [he]
  · rw [he, ranked_set_cache]

/-- A query leaves the lookup set unchanged. -/
theorem lkp_suggest_snd (c : SpellCorrector) (w : Str) (n : Nat) :
    (c.suggest w n).2.lkp_dictionary = c.lkp_dictionary := by
  rcases suggest_snd_cases c w n with he | he
  · rw [he]
  · rw [he]

/-- The cache invariant survives a query. -/
theorem CacheOK_suggest (c : SpellCorrector) (w : Str) (n : Nat) (hc : CacheOK c) :
    CacheOK (c.suggest w n).2 := by
  intro w' l' h'
  rw [ranked_suggest_snd]
  rcases suggest_snd_cases c w n with he | he
  · rw [he] at h'
    exact hc w' l' h'
  · rw [he] at h'
    by_cases hww : w' = w
    · subst hww
      simp only [if_pos rfl] at h'
      have hl' : l' = (rankedSuggestions c w').take n := Option.some.injEq _ _ ▸ h'.symm
      subst hl'
      exact take_take_length _ n
    · simp only [if_neg hww] at h'
      exact hc w' l' h'

/-- Canonical form of a single-word query's answer, under the cache
invariant: vocabulary members get `NoSuggestions`, everything else gets
the first `n` ranked suggestions. -/
theorem suggest_fst (c : SpellCorrector) (w : Str) (n : Nat) (hc : CacheOK c) :
    (c.suggest w n).1 =
      if w ∈ c.lkp_dictionary then SuggestedCorrection.NoSuggestions
      else SuggestedCorrection.Suggestions ((rankedSuggestions c w).take n) := by
  by_cases hw : w ∈ c.lkp_dictionary
  · rw [if_pos hw, suggest_mem_lkp c w n hw]
  · rw [if_neg hw]
    cases hcw : c.cache w with
    | none =>
      rw [suggest_recompute c w n hw (Or.inl hcw), recompute_fst]
    | some l =>
      by_cases hn : n < l.length
      · rw [suggest_serve c w n l hw hcw hn]
        have hl := hc w l hcw
        have : l.take n = (rankedSuggestions c w).take n := by
          rw [hl, List.take_take, Nat.min_eq_left (by omega)]
        rw [this]
      · rw [suggest_recompute c w n hw (Or.inr ⟨l, hcw, by omega⟩), recompute_fst]

/-! ### The ranking order -/

/-- Unfolding of the lexicographic comparison on nonempty strings. -/
theorem lexLE_cons (x y : Nat) (xs ys : Str) :
    lexLE (x :: xs) (y :: ys) = true ↔ x < y ∨ (x = y ∧ lexLE xs ys = true) := by
  rw [lexLE]
  rcases Nat.lt_trichotomy x y with h | h | h
  · rw [if_pos h]
    simp [h]
  · subst h
    rw [if_neg (Nat.lt_irrefl x), if_neg (Nat.lt_irrefl x)]
    simp
  · rw [if_neg (by omega : ¬ x < y), if_pos h]
    simp
    omega

/-- The lexicographic comparison is total. -/
theorem lexLE_total : ∀ a b : Str, lexLE a b = true ∨ lexLE b a = true := by
  intro a
  induction a with
  | nil =>
    intro b
    exact Or.inl rfl
  | cons x xs ih =>
    intro b
    cases b with
    | nil => exact Or.inr rfl
    | cons y ys =>
      rw [lexLE_cons, lexLE_cons]
      rcases Nat.lt_trichotomy x y with h | h | h
      · exact Or.inl (Or.inl h)
      · subst h
        rcases ih ys with hx | hx
        · exact Or.inl (Or.inr ⟨rfl, hx⟩)
        · exact Or.inr (Or.inr ⟨rfl, hx⟩)
      · exact Or.inr (Or.inl h)

/-- The lexicographic comparison is transitive. -/
theorem lexLE_trans : ∀ a b c : Str,
    lexLE a b = true → lexLE b c = true → lexLE a c = true := by
  intro a
  induction a with
  | nil =>
    intro b c _ _
    rfl
  | cons x xs ih =>
    intro b c h1 h2
    cases b with
    | nil => exact absurd h1 (by rw [lexLE]; simp)
    | cons y ys =>
      cases c with
      | nil => exact absurd h2 (by rw [lexLE]; simp)
      | cons z zs =>
        rw [lexLE_cons] at h1 h2 ⊢
        rcases h1 with h1 | ⟨rfl, h1⟩
        · rcases h2 with h2 | ⟨rfl, h2⟩
          · exact Or.inl (by omega)
          · exact Or.inl h1
        · rcases h2 with h2 | ⟨rfl, h2⟩
          · exact Or.inl h2
          · exact Or.inr ⟨rfl, ih ys zs h1 h2⟩

instance : IsTotal Suggestion suggR := by
  constructor
  intro a b
  unfold suggR
  rcases Nat.lt_trichotomy a.distance b.distance with h | h | h
  · exact Or.inl (Or.inl h)
  · rcases Nat.lt_trichotomy b.word.length a.word.length with hl | hl | hl
    · exact Or.inl (Or.inr ⟨h, Or.inl hl⟩)
    · rcases lexLE_total a.word b.word with hx | hx
      · exact Or.inl (Or.inr ⟨h, Or.inr ⟨hl, hx⟩⟩)
      · exact Or.inr (Or.inr ⟨h.symm, Or.inr ⟨hl.symm, hx⟩⟩)
    · exact Or.inr (Or.inr ⟨h.symm, Or.inl hl⟩)
  · exact Or.inr (Or.inl h)

instance : IsTrans Suggestion suggR := by
  constructor
  intro a b c hab hbc
  unfold suggR at hab hbc ⊢
  rcases hab with h1 | ⟨e1, h1⟩
  · rcases hbc with h2 | ⟨e2, h2⟩
    · exact Or.inl (by omega)
    · exact Or.inl (by omega)
  · rcases hbc with h2 | ⟨e2, h2⟩
    · exact Or.inl (by omega)
    · refine Or.inr ⟨by omega, ?_⟩
      rcases h1 with hl1 | ⟨el1, hx1⟩
      · rcases h2 with hl2 | ⟨el2, hx2⟩
        · exact Or.inl (by omega)
        · exact Or.inl (by omega)
      · rcases h2 with hl2 | ⟨el2, hx2⟩
        · exact Or.inl (by omega)
        · exact Or.inr ⟨by omega, lexLE_trans _ _ _ hx1 hx2⟩

/-- The ranked suggestion list is sorted by the comparator. -/
theorem ranked_pairwise (c : SpellCorrector) (w : Str) :
    (rankedSuggestions c w).Pairwise suggR :=
  List.sorted_insertionSort suggR (verifiedSuggestions c w)

/-- Membership in the ranked list is membership in the verified list. -/
theorem mem_ranked (c : SpellCorrector) (w : Str) (s : Suggestion) :
    s ∈ rankedSuggestions c w ↔ s ∈ verifiedSuggestions c w :=
  List.mem_insertionSort suggR

/-! ### Vocabulary evolution under add-word -/

/-- The dictionary after a sequence of adds is the original followed by
the added words, in order. -/
theorem foldl_add_dictionary (adds : List Str) :
    ∀ c : SpellCorrector,
      (adds.foldl add_word_to_dictionary c).dictionary = c.dictionary ++ adds := by
  induction adds with
  | nil =>
    intro c
    simp
  | cons w adds ih =>
    intro c
    rw [List.foldl_cons, ih]
    show (add_word_to_dictionary c w).dictionary ++ adds = _
    rw [add_word_to_dictionary]
    simp

/-- Pointwise characterization of a corrector's deletion index in terms
of its dictionary: bucket `v` holds exactly the in-range indices of words
having `v` among their (kept-original) deletion variants, ascending. -/
def MappingsChar (c : SpellCorrector) : Prop :=
  ∀ v, c.dictionary_del_mappings v =
    (List.range c.dictionary.length).filter
      (fun i => decide (v ∈ deletion_variants (c.dictionary.getD i [])
        c.max_edit_distance true))

/-- A fresh corrector's index satisfies the characterization. -/
theorem MappingsChar_new (dict : List Str) (k : Nat) :
    MappingsChar (SpellCorrector.new dict k) := by
  intro v
  exact buildMappings_eq dict k v

/-- Adding one word preserves the index characterization. -/
theorem MappingsChar_add (c : SpellCorrector) (hchar : MappingsChar c) (w : Str) :
    MappingsChar (add_word_to_dictionary c w) := by
  intro v
  show pushWordVariants c.max_edit_distance c.dictionary_del_mappings w
      c.dictionary.length v = _
  have hdict : (add_word_to_dictionary c w).dictionary = c.dictionary ++ [w] := rfl
  have hk : (add_word_to_dictionary c w).max_edit_distance = c.max_edit_distance := rfl
  rw [hdict, hk, List.length_append, List.length_singleton, List.range_succ,
    List.filter_append]
  have hfilter :
      (List.range c.dictionary.length).filter
          (fun i => decide (v ∈ deletion_variants ((c.dictionary ++ [w]).getD i [])
            c.max_edit_distance true)) =
        (List.range c.dictionary.length).filter
          (fun i => decide (v ∈ deletion_variants (c.dictionary.getD i [])
            c.max_edit_distance true)) := by
    apply List.filter_congr
    intro i hi
    have hilt : i < c.dictionary.length := List.mem_range.mp hi
    have : (c.dictionary ++ [w]).getD i [] = c.dictionary.getD i [] := by
      simp [List.getD_eq_getElem?_getD, List.getElem?_append, hilt]
    rw [this]
  have hlast : (c.dictionary ++ [w]).getD c.dictionary.length [] = w := by
    simp [List.getD_eq_getElem?_getD,
      List.getElem?_append_right (le_refl c.dictionary.length)]
  rw [hfilter, pushWordVariants, ← hchar v]
  by_cases hv : v ∈ deletion_variants w c.max_edit_distance true
  · rw [if_pos hv]
    have : (List.filter
        (fun i => decide (v ∈ deletion_variants ((c.dictionary ++ [w]).getD i [])
          c.max_edit_distance true)) [c.dictionary.length]) = [c.dictionary.length] := by
      simp [hlast, hv]
    rw [this]
  · rw [if_neg hv]
    have : (List.filter
        (fun i => decide (v ∈ deletion_variants ((c.dictionary ++ [w]).getD i [])
          c.max_edit_distance true)) [c.dictionary.length]) = [] := by
      simp [hlast, hv]
    rw [this, List.append_nil]

/-- A whole sequence of adds preserves the index characterization. -/
theorem MappingsChar_foldl (adds : List Str) :
    ∀ c : SpellCorrector, MappingsChar c →
      MappingsChar (adds.foldl add_word_to_dictionary c) := by
  induction adds with
  | nil =>
    intro c h
    exact h
  | cons w adds ih =>
    intro c h
    rw [List.foldl_cons]
    exact ih _ (MappingsChar_add c h w)

/-- With a duplicate-free dictionary, the words referenced by any bucket
are pairwise distinct. -/
theorem bucket_words_nodup (c : SpellCorrector) (hchar : MappingsChar c)
    (hnd : c.dictionary.Nodup) (v : Str) :
    ((c.dictionary_del_mappings v).map (fun i => c.dictionary.getD i [])).Nodup := by
  rw [hchar v]
  apply (List.pairwise_map).mpr
  have hlt : ((List.range c.dictionary.length).filter
      (fun i => decide (v ∈ deletion_variants (c.dictionary.getD i [])
        c.max_edit_distance true))).Pairwise (· < ·) :=
    (List.pairwise_lt_range _).sublist (List.filter_sublist _)
  refine hlt.imp_of_mem ?_
  intro a b ha hb hab
  have halt : a < c.dictionary.length := List.mem_range.mp (List.mem_of_mem_filter ha)
  have hblt : b < c.dictionary.length := List.mem_range.mp (List.mem_of_mem_filter hb)
  rw [List.getD_eq_getElem c.dictionary [] halt, List.getD_eq_getElem c.dictionary [] hblt]
  intro he
  have := (List.Nodup.getElem_inj_iff hnd).mp he
  omega

/-! ### The claims -/

/-- Claim C1 states that every vocabulary word within the bound of a
non-member query lands in the candidate set and hence in the suggestions.
The code falsifies it: with vocabulary ["cat"] and bound 1, the query
"ct" is not a member and "cat" is at true Levenshtein distance 1, yet the
candidate set is empty and the query answers with an empty suggestion
list. The query's deletion variants are generated with keep-original set
to false, so the index is never consulted at the query string itself and
a vocabulary word reachable from the query by pure insertion is missed. -/
theorem claim_C1_candidate_missed :
    [99, 116] ∉ (SpellCorrector.new [[99, 97, 116]] 1).dictionary ∧
    levenshtein [99, 116] [99, 97, 116] = 1 ∧
    candidateList (SpellCorrector.new [[99, 97, 116]] 1) [99, 116] = [] ∧
    ((SpellCorrector.new [[99, 97, 116]] 1).suggest [99, 116] 10).1 =
      SuggestedCorrection.Suggestions [] := by
  decide

/-- Claim C2 states that batch correction maps the single-word path over
the input in order, and that the batch ["ct","ct","dog"] over vocabulary
{"cat","dog"} with bound 1 and count 1 yields "cat" suggestions for both
"ct" entries. The code preserves order and elementwise application but
returns empty suggestion lists for "ct" (same root cause as C1), although
"cat" is at distance 1 from "ct". -/
theorem claim_C2_batch_eval :
    suggest_word_corrections (SpellCorrector.new [[99, 97, 116], [100, 111, 103]] 1)
        [[99, 116], [99, 116], [100, 111, 103]] 1 =
      [SuggestedCorrection.Suggestions [], SuggestedCorrection.Suggestions [],
        SuggestedCorrection.NoSuggestions] ∧
    levenshtein [99, 116] [99, 97, 116] = 1 := by
  decide

/-- Claim C3: for all strings and every bound, the bounded verifier
returns the true unbounded Levenshtein distance whenever that distance is
within the bound, and some value strictly greater than the bound
otherwise. -/
theorem claim_C3_bounded_verifier (a b : Str) (b0 : Nat) :
    (levenshtein a b ≤ b0 → bounded_levenshtein a b b0 = levenshtein a b) ∧
    (b0 < levenshtein a b → b0 < bounded_levenshtein a b b0) :=
  bounded_lev_spec a b b0

/-- Witness for C3 at concrete inputs: distance within the bound on one
pair, distance exceeding the bound on another. -/
theorem claim_C3_witness :
    bounded_levenshtein [0, 1] [1, 0] 2 = levenshtein [0, 1] [1, 0] ∧
    1 < bounded_levenshtein [99, 116] [] 1 :=
  ⟨(claim_C3_bounded_verifier [0, 1] [1, 0] 2).1 (by decide),
    (claim_C3_bounded_verifier [99, 116] [] 1).2 (by decide)⟩

/-- Claim C4: a single-word query answers `NoSuggestions` exactly when the
query word is a vocabulary member, and a non-member with an empty
candidate set (in particular over an empty vocabulary) gets the
`Suggestions` variant carrying the empty list; there is no error path. -/
theorem claim_C4_no_suggestions_iff_member (c : SpellCorrector) (w : Str) (n : Nat)
    (hwf : WF c) (hc : CacheOK c) :
    ((c.suggest w n).1 = SuggestedCorrection.NoSuggestions ↔ w ∈ c.dictionary) ∧
    (w ∉ c.dictionary → candidateList c w = [] →
      (c.suggest w n).1 = SuggestedCorrection.Suggestions []) := by
  have hlkp : w ∈ c.lkp_dictionary ↔ w ∈ c.dictionary := hwf.1 w
  constructor
  · rw [suggest_fst c w n hc]
    by_cases hw : w ∈ c.lkp_dictionary
    · rw [if_pos hw]
      exact iff_of_true rfl (hlkp.mp hw)
    · rw [if_neg hw]
      exact iff_of_false (by simp) (fun hd => hw (hlkp.mpr hd))
  · intro hd hcand
    rw [suggest_fst c w n hc, if_neg (fun hw => hd (hlkp.mp hw))]
    have hrank : rankedSuggestions c w = [] := by
      rw [rankedSuggestions, verifiedSuggestions, hcand]
      rfl
    rw [hrank, List.take_nil]

/-- Witness for C4: empty-candidate outcome over the empty vocabulary,
and the member short-circuit over a singleton vocabulary. -/
theorem claim_C4_witness :
    ((SpellCorrector.new [] 2).suggest [97] 3).1 =
      SuggestedCorrection.Suggestions [] ∧
    ((SpellCorrector.new [[99, 97, 116]] 1).suggest [99, 97, 116] 3).1 =
      SuggestedCorrection.NoSuggestions :=
  ⟨(claim_C4_no_suggestions_iff_member (SpellCorrector.new [] 2) [97] 3
      (WF_new [] 2) (CacheOK_new [] 2)).2 (by decide) (by decide),
    (claim_C4_no_suggestions_iff_member (SpellCorrector.new [[99, 97, 116]] 1)
      [99, 97, 116] 3 (WF_new _ _) (CacheOK_new _ _)).1.mpr (by decide)⟩

/-- Claim C5: any suggestion list a single-word query returns is sorted by
ascending distance, then descending word length, then ascending
lexicographic order, and holds at most the requested number of entries. -/
theorem claim_C5_sorted_truncated (c : SpellCorrector) (w : Str) (n : Nat)
    (l : List Suggestion) (hc : CacheOK c)
    (h : (c.suggest w n).1 = SuggestedCorrection.Suggestions l) :
    l.Pairwise suggR ∧ l.length ≤ n := by
  rw [suggest_fst c w n hc] at h
  by_cases hw : w ∈ c.lkp_dictionary
  · rw [if_pos hw] at h
    exact absurd h (by simp)
  · rw [if_neg hw] at h
    injection h with h'
    subst h'
    constructor
    · exact (ranked_pairwise c w).sublist (List.take_sublist _ _)
    · simp [List.length_take]

/-- Witness for C5 on a concrete query returning one suggestion. -/
theorem claim_C5_witness :
    ([({ word := [99, 97, 116], distance := 1 } : Suggestion)]).Pairwise suggR ∧
    ([({ word := [99, 97, 116], distance := 1 } : Suggestion)]).length ≤ 2 :=
  claim_C5_sorted_truncated (SpellCorrector.new [[99, 97, 116]] 1) [99, 97, 114, 116] 2
    [{ word := [99, 97, 116], distance := 1 }] (CacheOK_new _ _) (by decide)

/-- Claim C6: for a non-member query, a cached entry strictly longer than
the requested count is served truncated with no recomputation and no
state change; otherwise (no entry, or an entry of length at most the
request, including exactly the request) the full pipeline recomputes and
the cache entry is overwritten with the new result. -/
theorem claim_C6_cache_policy (c : SpellCorrector) (w : Str) (n : Nat)
    (hw : w ∉ c.lkp_dictionary) :
    (∀ l, c.cache w = some l → n < l.length →
      (c.suggest w n).1 = SuggestedCorrection.Suggestions (l.take n) ∧
        (c.suggest w n).2 = c) ∧
    ((c.cache w = none ∨ ∃ l, c.cache w = some l ∧ l.length ≤ n) →
      (c.suggest w n).1 =
        SuggestedCorrection.Suggestions ((rankedSuggestions c w).take n) ∧
        (c.suggest w n).2.cache w = some ((rankedSuggestions c w).take n)) := by
  constructor
  · intro l hcw hn
    rw [suggest_serve c w n l hw hcw hn]
    exact ⟨rfl, rfl⟩
  · intro hcase
    rw [suggest_recompute c w n hw hcase]
    exact ⟨recompute_fst c w n, recompute_cache c w n⟩

/-- Witness for C6 on a fresh corrector (no cached entry, so the
recompute-and-overwrite branch applies). -/
theorem claim_C6_witness :
    ((SpellCorrector.new [[99, 97, 116]] 1).suggest [99, 97, 114, 116] 2).1 =
      SuggestedCorrection.Suggestions
        ((rankedSuggestions (SpellCorrector.new [[99, 97, 116]] 1) [99, 97, 114, 116]).take 2) ∧
    ((SpellCorrector.new [[99, 97, 116]] 1).suggest [99, 97, 114, 116] 2).2.cache
        [99, 97, 114, 116] =
      some ((rankedSuggestions (SpellCorrector.new [[99, 97, 116]] 1) [99, 97, 114, 116]).take 2) :=
  (claim_C6_cache_policy (SpellCorrector.new [[99, 97, 116]] 1) [99, 97, 114, 116] 2
    (by decide)).2 (Or.inl rfl)

/-- Claim C7 as stated is false on the code: constructing from a word
list with a repeated word stores the word twice in the dictionary, and
the bucket of that word's variant references the same word twice. -/
theorem claim_C7_counterexample :
    ¬ ((SpellCorrector.new [[99], [99]] 0).dictionary.Nodup ∧
      ∀ v, (((SpellCorrector.new [[99], [99]] 0).dictionary_del_mappings v).map
        (fun i => (SpellCorrector.new [[99], [99]] 0).dictionary.getD i [])).Nodup) := by
  intro h
  exact (by decide : ¬ (SpellCorrector.new [[99], [99]] 0).dictionary.Nodup) h.1

/-- Claim C7, amended: provided the construction list together with the
added words contains no duplicate, the vocabulary holds no word twice and
every deletion-index bucket references a given word (hence a given
variant-word pair) at most once. -/
theorem claim_C7_amended_nodup (dict adds : List Str) (k : Nat)
    (h : (dict ++ adds).Nodup) :
    (adds.foldl add_word_to_dictionary (SpellCorrector.new dict k)).dictionary.Nodup ∧
    ∀ v, (((adds.foldl add_word_to_dictionary
        (SpellCorrector.new dict k)).dictionary_del_mappings v).map
      (fun i => (adds.foldl add_word_to_dictionary
        (SpellCorrector.new dict k)).dictionary.getD i [])).Nodup := by
  have hdict := foldl_add_dictionary adds (SpellCorrector.new dict k)
  have hnd : (adds.foldl add_word_to_dictionary
      (SpellCorrector.new dict k)).dictionary.Nodup := by
    rw [hdict]
    exact h
  refine ⟨hnd, ?_⟩
  intro v
  exact bucket_words_nodup _
    (MappingsChar_foldl adds _ (MappingsChar_new dict k)) hnd v

/-- Witness for the amended C7 with one constructed and one added word. -/
theorem claim_C7_witness :
    (([[100]] : List Str).foldl add_word_to_dictionary
      (SpellCorrector.new [[99]] 0)).dictionary.Nodup :=
  (claim_C7_amended_nodup [[99]] [[100]] 0 (by decide)).1

/-- Claim C8: the deletion-variant generator keeps the original word
exactly when asked to, and everything it produces is at most the original
length and at least the original length minus the deletion budget. -/
theorem claim_C8_generator_properties (w : Str) (k : Nat) :
    w ∈ deletion_variants w k true ∧
    w ∉ deletion_variants w k false ∧
    ∀ (keep : Bool) (s : Str), s ∈ deletion_variants w k keep →
      w.length - k ≤ s.length ∧ s.length ≤ w.length :=
  ⟨deletion_variants_keep w k, deletion_variants_not_keep w k,
    fun keep s hs => deletion_variants_length w k keep s hs⟩

/-- Witness for C8 on the two-character word "ab" with one deletion. -/
theorem claim_C8_witness :
    ([97, 98] : Str) ∈ deletion_variants [97, 98] 1 true ∧
    ([97, 98] : Str).length - 1 ≤ ([97] : Str).length ∧
    ([97] : Str).length ≤ ([97, 98] : Str).length :=
  ⟨(claim_C8_generator_properties [97, 98] 1).1,
    ((claim_C8_generator_properties [97, 98] 1).2.2 false [97] (by decide)).1,
    ((claim_C8_generator_properties [97, 98] 1).2.2 false [97] (by decide)).2⟩

/-- Claim C9: a single-word query's answer does not depend on the prior
cache state (over states satisfying the cache invariant), and repeating
the query on the post-query state returns the same answer. -/
theorem claim_C9_cache_independent (c c' : SpellCorrector) (w : Str) (n : Nat)
    (hc : CacheOK c) (hc' : CacheOK c')
    (hd : c'.dictionary = c.dictionary)
    (hm : ∀ v, c'.dictionary_del_mappings v = c.dictionary_del_mappings v)
    (hk : c'.max_edit_distance = c.max_edit_distance)
    (hl : ∀ v, v ∈ c'.lkp_dictionary ↔ v ∈ c.lkp_dictionary) :
    (c'.suggest w n).1 = (c.suggest w n).1 ∧
    (((c.suggest w n).2).suggest w n).1 = (c.suggest w n).1 := by
  have hmf : c'.dictionary_del_mappings = c.dictionary_del_mappings := funext hm
  have hrank := ranked_congr c c' w hd hmf hk
  constructor
  · rw [suggest_fst c w n hc, suggest_fst c' w n hc', hrank]
    by_cases hw : w ∈ c.lkp_dictionary
    · rw [if_pos hw, if_pos ((hl w).mpr hw)]
    · rw [if_neg hw, if_neg (fun h => hw ((hl w).mp h))]
  · rw [suggest_fst c w n hc, suggest_fst _ w n (CacheOK_suggest c w n hc),
      ranked_suggest_snd, lkp_suggest_snd]

/-- Witness for C9: the second query after a cache write agrees with the
first. -/
theorem claim_C9_witness :
    (((SpellCorrector.new [[99, 97, 116]] 1).suggest [99, 97, 114, 116] 1).2.suggest
        [99, 97, 114, 116] 1).1 =
      ((SpellCorrector.new [[99, 97, 116]] 1).suggest [99, 97, 114, 116] 1).1 :=
  (claim_C9_cache_independent (SpellCorrector.new [[99, 97, 116]] 1)
    (SpellCorrector.new [[99, 97, 116]] 1) [99, 97, 114, 116] 1
    (CacheOK_new _ _) (CacheOK_new _ _) rfl (fun _ => rfl) rfl (fun _ => Iff.rfl)).2

/-- Claim C10: every suggestion a single-word query returns carries a
distance of at least 1 and at most the configured bound; distance 0 is
impossible because exact members are short-circuited before ranking. -/
theorem claim_C10_distance_bounds (c : SpellCorrector) (w : Str) (n : Nat)
    (l : List Suggestion) (hwf : WF c) (hc : CacheOK c)
    (h : (c.suggest w n).1 = SuggestedCorrection.Suggestions l) :
    ∀ s ∈ l, 1 ≤ s.distance ∧ s.distance ≤ c.max_edit_distance := by
  intro s hs
  rw [suggest_fst c w n hc] at h
  by_cases hw : w ∈ c.lkp_dictionary
  · rw [if_pos hw] at h
    exact absurd h (by simp)
  · rw [if_neg hw] at h
    injection h with h'
    subst h'
    have hmem : s ∈ rankedSuggestions c w := (List.take_sublist _ _).subset hs
    have hver : s ∈ verifiedSuggestions c w := (mem_ranked c w s).mp hmem
    obtain ⟨i, hi, hfi⟩ := List.mem_filterMap.mp hver
    dsimp only [] at hfi
    by_cases hd : bounded_levenshtein w (c.dictionary.getD i [])
        c.max_edit_distance ≤ c.max_edit_distance
    · rw [if_pos hd] at hfi
      injection hfi with hfi
      subst hfi
      refine ⟨?_, hd⟩
      show 1 ≤ bounded_levenshtein w (c.dictionary.getD i []) c.max_edit_distance
      by_contra hlt
      have hd0 : bounded_levenshtein w (c.dictionary.getD i [])
          c.max_edit_distance = 0 := by omega
      have heq := bounded_lev_eq_zero _ _ _ hd0
      obtain ⟨v, _, hbucket⟩ := (mem_candidateList c w i).mp hi
      have hilt := hwf.2 v i hbucket
      have hmemdict : c.dictionary.getD i [] ∈ c.dictionary := by
        rw [List.getD_eq_getElem c.dictionary [] hilt]
        exact List.getElem_mem hilt
      rw [← heq] at hmemdict
      exact hw ((hwf.1 w).mpr hmemdict)
    · rw [if_neg hd] at hfi
      exact Option.noConfusion hfi

/-- Witness for C10 on a concrete query returning one suggestion. -/
theorem claim_C10_witness :
    1 ≤ ({ word := [99, 97, 116], distance := 1 } : Suggestion).distance ∧
    ({ word := [99, 97, 116], distance := 1 } : Suggestion).distance ≤
      (SpellCorrector.new [[99, 97, 116]] 1).max_edit_distance :=
  claim_C10_distance_bounds (SpellCorrector.new [[99, 97, 116]] 1) [99, 97, 114, 116] 2
    [{ word := [99, 97, 116], distance := 1 }] (WF_new _ _) (CacheOK_new _ _) (by decide)
    { word := [99, 97, 116], distance := 1 } (by decide)

end SpellCheck
